import Mathlib

/-!
Shallow embedding of the Glicko-2 rating engine of this repository
(the weighted, zero-sum-normalized variant in `api/telegram_webhook.py`;
the legacy variant in `api/rating_engine.py` shares the scale converter
verbatim).  Floating-point numbers are modelled as real numbers.  Python
exceptions are modelled by `Except Err`; the unbounded `while` loops of
the volatility solver are modelled with an explicit fuel parameter, the
`Err.diverge` outcome marking "still iterating after the supplied fuel",
which is a modelling artifact and not a Python exception.  Python dicts
keyed by player id are modelled as functional maps `Int -> Option _`;
the `results` dict of `process_game`, which callers iterate in insertion
order, is modelled as the association list produced in iteration order
(the two agree whenever the ten player ids are distinct, which every
theorem below assumes where it matters).
-/

namespace Mafia

/-- Python-level failures of the engine: `ValueError` raised by
`process_game` for a malformed game (carrying the game id), the
`ZeroDivisionError` of a zero denominator, the math-domain `ValueError`
of `math.log` on a non-positive argument, and the fuel marker
`diverge` for a loop still running after the supplied fuel. -/
inductive Err where
  | valueError (game_id : Int)
  | zeroDivisionError
  | mathDomainError
  | diverge
deriving DecidableEq, Repr

/-- Python float division: raises `ZeroDivisionError` on a zero denominator. -/
noncomputable def pydiv (x y : ℝ) : Except Err ℝ :=
  if y = 0 then .error .zeroDivisionError else .ok (x / y)

/-- Python `math.log`: raises a math-domain `ValueError` on a non-positive argument. -/
noncomputable def pylog (x : ℝ) : Except Err ℝ :=
  if x ≤ 0 then .error .mathDomainError else .ok (Real.log x)

/-- Property of the success value of an `Except`; trivially true on errors. -/
def holdsOk {α : Type _} (P : α → Prop) : Except Err α → Prop
  | .ok a => P a
  | .error _ => True

/-- Property of the success value of an `Except`; false on errors. -/
def evalOk {α : Type _} (P : α → Prop) : Except Err α → Prop
  | .ok a => P a
  | .error _ => False

/-- Relation between the success values of two `Except` runs; trivially
true unless both runs succeed. -/
def bothOk {α : Type _} (P : α → α → Prop) : Except Err α → Except Err α → Prop
  | .ok a, .ok b => P a b
  | _, _ => True

-- Glicko-2 constants of the weighted variant (telegram_webhook.py lines 95-100).
def INITIAL_RATING : ℝ := 1500.0
def INITIAL_RD : ℝ := 225.0
def INITIAL_SIGMA : ℝ := 0.06
def TAU : ℝ := 1.25
def WEIGHT_MULTIPLIER : ℝ := 1.75
def EPSILON : ℝ := 0.000001

/-- A player rating row: public-scale rating, rating deviation and volatility. -/
structure PlayerRating where
  player_id : Int
  rating : ℝ
  rd : ℝ
  sigma : ℝ

/-- Fresh default rating row `PlayerRating(player_id)`. -/
def initPR (pid : Int) : PlayerRating :=
  ⟨pid, INITIAL_RATING, INITIAL_RD, INITIAL_SIGMA⟩

/-- Conversion from the public Glicko scale to the internal Glicko-2 scale. -/
noncomputable def PlayerRating.to_glicko2_scale (p : PlayerRating) : ℝ × ℝ :=
  ((p.rating - 1500) / 173.7178, p.rd / 173.7178)

/-- Conversion from the internal Glicko-2 scale back to the public scale. -/
noncomputable def PlayerRating.from_glicko2_scale (mu phi sigma : ℝ) : ℝ × ℝ × ℝ :=
  (mu * 173.7178 + 1500, phi * 173.7178, sigma)

/-- Glicko-2 g function. -/
noncomputable def g_function (phi : ℝ) : ℝ :=
  1 / Real.sqrt (1 + 3 * phi * phi / (Real.pi * Real.pi))

/-- Glicko-2 E function (expected score). -/
noncomputable def e_function (mu mu_j phi_j : ℝ) : ℝ :=
  1 / (1 + Real.exp (-(g_function phi_j) * (mu - mu_j)))

/-- Estimated variance of the rating from the weighted opponents
(`compute_variance`); a large sentinel replaces a numerically
negligible information sum. -/
noncomputable def compute_variance (mu : ℝ) (opponents : List (ℝ × ℝ))
    (weights : List ℝ) : ℝ :=
  let v_inv := ((opponents.zip weights).map (fun ow =>
    let g := g_function ow.1.2
    let e := e_function mu ow.1.1 ow.1.2
    ow.2 * g * g * e * (1 - e))).sum
  if v_inv < EPSILON then 1000000 else 1 / v_inv

/-- Weighted rating improvement (`compute_delta`). -/
noncomputable def compute_delta (mu v : ℝ) (opponents : List (ℝ × ℝ))
    (results weights : List ℝ) : ℝ :=
  v * ((opponents.zip (results.zip weights)).map (fun orw =>
    let g := g_function orw.1.2
    let e := e_function mu orw.1.1 orw.1.2
    orw.2.2 * g * (orw.2.1 - e))).sum

/-- The objective function `f` of the volatility solver
(`compute_new_sigma` inner `f`); the unused `v_inv = 1.0 / v` of the
source is kept because its evaluation raises on `v = 0`. -/
noncomputable def fSolver (phi v delta a x : ℝ) : Except Err ℝ := do
  let ex := Real.exp x
  let phi2 := phi * phi
  let _ ← pydiv 1 v
  let d2 := delta * delta
  let term1 := ex * (d2 - phi2 - v - ex)
  let term2 := 2 * (phi2 + v + ex) * (phi2 + v + ex)
  let term3 := (x - a) / (TAU * TAU)
  let q ← pydiv term1 term2
  pure (q - term3)

/-- Downward bracket search of the volatility solver: the source loop
`while f(a - k*TAU) < 0: k += 1` with explicit fuel. -/
noncomputable def kSearch (phi v delta a : ℝ) : ℕ → ℕ → Except Err ℕ
  | 0, _ => .error .diverge
  | fuel + 1, k => do
    let fv ← fSolver phi v delta a (a - (k : ℝ) * TAU)
    if fv < 0 then kSearch phi v delta a fuel (k + 1) else pure k

/-- The Illinois/secant iteration of the volatility solver: the source
loop `while abs(B - A) > EPSILON` with explicit fuel. -/
noncomputable def illinois (phi v delta a : ℝ) : ℕ → ℝ → ℝ → ℝ → ℝ → Except Err ℝ
  | 0, A, B, _, _ =>
    if |B - A| > EPSILON then .error .diverge else pure (Real.exp (A / 2))
  | fuel + 1, A, B, fA, fB =>
    if |B - A| > EPSILON then do
      let q ← pydiv ((A - B) * fA) (fB - fA)
      let C := A + q
      let fC ← fSolver phi v delta a C
      if fC * fB < 0 then illinois phi v delta a fuel B C fB fC
      else illinois phi v delta a fuel A C (fA / 2) fC
    else pure (Real.exp (A / 2))

/-- Bracket initialization of the volatility solver: the closed-form
second endpoint when the surprise exceeds the explained variance, the
downward search otherwise. -/
noncomputable def bracketB (fuel : ℕ) (phi v delta a : ℝ) : Except Err ℝ :=
  if delta * delta > phi * phi + v then
    pylog (delta * delta - phi * phi - v)
  else do
    let k ← kSearch phi v delta a fuel 1
    pure (a - (k : ℝ) * TAU)

/-- Volatility solver `compute_new_sigma`: bracket initialization then
the Illinois iteration. -/
noncomputable def compute_new_sigma (fuel : ℕ) (phi sigma v delta : ℝ) :
    Except Err ℝ := do
  let a ← pylog (sigma * sigma)
  let B ← bracketB fuel phi v delta a
  let fA ← fSolver phi v delta a a
  let fB ← fSolver phi v delta a B
  illinois phi v delta a fuel a B fA fB

/-- One-player Glicko-2 update `update_rating` of the weighted variant:
empty opponent or result lists take the no-games RD-inflation path,
otherwise variance, delta, new volatility, new deviation and new rating
are computed in the order of the source. -/
noncomputable def update_rating (fuel : ℕ) (player : PlayerRating)
    (opponents : List PlayerRating) (results weights : List ℝ) :
    Except Err PlayerRating :=
  if opponents.isEmpty || results.isEmpty then
    let mu := player.to_glicko2_scale.1
    let phi := player.to_glicko2_scale.2
    let phi_star := Real.sqrt (phi * phi + player.sigma * player.sigma)
    let r := PlayerRating.from_glicko2_scale mu phi_star player.sigma
    pure ⟨player.player_id, r.1, r.2.1, r.2.2⟩
  else do
    let mu := player.to_glicko2_scale.1
    let phi := player.to_glicko2_scale.2
    let opponent_ratings := opponents.map (fun o => o.to_glicko2_scale)
    let v := compute_variance mu opponent_ratings weights
    let delta := compute_delta mu v opponent_ratings results weights
    let new_sigma ← compute_new_sigma fuel phi player.sigma v delta
    let phi_star := Real.sqrt (phi * phi + new_sigma * new_sigma)
    let phi_new := 1 / Real.sqrt (1 / (phi_star * phi_star) + 1 / v)
    let weighted_sum := ((opponent_ratings.zip (results.zip weights)).map (fun orw =>
      let g := g_function orw.1.2
      let e := e_function mu orw.1.1 orw.1.2
      orw.2.2 * g * (orw.2.1 - e))).sum
    let mu_new := mu + phi_new * phi_new * weighted_sum
    let r := PlayerRating.from_glicko2_scale mu_new phi_new new_sigma
    pure ⟨player.player_id, r.1, r.2.1, r.2.2⟩

/-- The running rating map `current_ratings`. -/
def RMap : Type := Int → Option PlayerRating

/-- The tentative-results dict of `process_game` phase 1. -/
def TMap : Type := Int → Option (PlayerRating × PlayerRating)

/-- Lazy default construction: `if player_id not in current_ratings:
current_ratings[player_id] = PlayerRating(player_id)`. -/
def ensure (m : RMap) (pid : Int) : RMap :=
  match m pid with
  | some _ => m
  | none => Function.update m pid (some (initPR pid))

/-- Total lookup in the rating map after default construction. -/
def lookupTot (m : RMap) (pid : Int) : PlayerRating :=
  (m pid).getD (initPR pid)

/-- The inner opponent loop of `process_game` phase 1: for one subject
player, walk `players_data`, skip the subject itself and its teammates,
default-construct missing opponents, and accumulate the parallel
opponent, result and weight lists in source order. -/
def innerFold (pid : Int) (won : Bool) (w : ℝ) :
    List (Int × Bool) → RMap → RMap × (List PlayerRating × List ℝ × List ℝ)
  | [], m => (m, ([], [], []))
  | (oid, owon) :: rest, m =>
    if oid = pid then innerFold pid won w rest m
    else if owon = won then innerFold pid won w rest m
    else
      let m1 := ensure m oid
      let opp := lookupTot m1 oid
      let r := innerFold pid won w rest m1
      (r.1, (opp :: r.2.1, (if won then (1 : ℝ) else 0) :: r.2.2.1, w :: r.2.2.2))

/-- Phase 1 of `process_game`: tentative updates for each player in
list order, threading the rating map (which phase 1 only extends by
default rows) and the tentative-results dict.  The division
`WEIGHT_MULTIPLIER / opponent_count` raises `ZeroDivisionError` when
the opposing team is empty, exactly as the Python float division does. -/
noncomputable def phase1 (fuel : ℕ) (all : List (Int × Bool)) (wc lc : ℕ) :
    List (Int × Bool) → RMap → TMap → RMap × Except Err TMap
  | [], m, t => (m, .ok t)
  | (pid, won) :: rest, m, t =>
    let m1 := ensure m pid
    let rating_before := lookupTot m1 pid
    let opponent_count := if won then lc else wc
    if opponent_count = 0 then (m1, .error .zeroDivisionError)
    else
      let weight_per_match := WEIGHT_MULTIPLIER / (opponent_count : ℝ)
      let r := innerFold pid won weight_per_match all m1
      match update_rating fuel rating_before r.2.1 r.2.2.1 r.2.2.2 with
      | .error e => (r.1, .error e)
      | .ok rating_after =>
        phase1 fuel all wc lc rest r.1
          (Function.update t pid (some (rating_before, rating_after)))

/-- Phase 2 of `process_game`: the summed tentative rating change over
`players_data`. -/
def totalChange (t : TMap) (players : List (Int × Bool)) : ℝ :=
  (players.map (fun q =>
    let pr := (t q.1).getD (initPR q.1, initPR q.1)
    pr.2.rating - pr.1.rating)).sum

/-- Phase 3 of `process_game`: subtract the uniform correction from
every tentative posterior rating, record the (before, after) pair per
player in iteration order, and write the final row back into the
rating map. -/
def phase3 (correction : ℝ) (t : TMap) :
    List (Int × Bool) → RMap → List (Int × PlayerRating × PlayerRating) × RMap
  | [], m => ([], m)
  | (pid, _) :: rest, m =>
    let pr := (t pid).getD (initPR pid, initPR pid)
    let fin : PlayerRating := ⟨pid, pr.2.rating - correction, pr.2.rd, pr.2.sigma⟩
    let r := phase3 correction t rest (Function.update m pid (some fin))
    ((pid, pr.1, fin) :: r.1, r.2)

/-- `process_game` of the weighted variant: reject games without
exactly 10 players, compute tentative weighted micromatch updates from
the running map, then normalize the ten rating deltas to a zero sum.
The returned map is the state of `current_ratings` when the call
returns or raises. -/
noncomputable def process_game (fuel : ℕ) (game_id : Int)
    (players_data : List (Int × Bool)) (m : RMap) :
    RMap × Except Err (List (Int × PlayerRating × PlayerRating)) :=
  if players_data.length ≠ 10 then (m, .error (.valueError game_id))
  else
    let wc := (players_data.filter (fun q => q.2)).length
    let lc := (players_data.filter (fun q => !q.2)).length
    match phase1 fuel players_data wc lc players_data m (fun _ => none) with
    | (m1, .error e) => (m1, .error e)
    | (m1, .ok t) =>
      let correction := totalChange t players_data / 10
      let r := phase3 correction t players_data m1
      (r.2, .ok r.1)

/-- One row of the rating-history output of the recompute engine. -/
structure HistRec where
  game_id : Int
  player_id : Int
  rating_before : ℝ
  rd_before : ℝ
  sigma_before : ℝ
  rating_after : ℝ
  rd_after : ℝ
  sigma_after : ℝ

/-- Python `round(x, k)` to `k` decimal places. -/
noncomputable def roundTo (k : ℕ) (x : ℝ) : ℝ :=
  ((round (x * 10 ^ k) : ℤ) : ℝ) / 10 ^ k

/-- History record written by the recompute loop for one result entry. -/
noncomputable def histOf (gid : Int) (e : Int × PlayerRating × PlayerRating) : HistRec :=
  ⟨gid, e.1, roundTo 2 e.2.1.rating, roundTo 2 e.2.1.rd, roundTo 6 e.2.1.sigma,
    roundTo 2 e.2.2.rating, roundTo 2 e.2.2.rd, roundTo 6 e.2.2.sigma⟩

/-- The per-game core loop of `full_recompute` (after the external data
plumbing has resolved roles into `(player_id, won)` pairs): a game with
a player count other than 10 is skipped before `process_game` runs;
a game on which `process_game` raises is skipped, keeping the rating
map `process_game` left behind, and processing continues. -/
noncomputable def recompute (fuel : ℕ) :
    List (Int × List (Int × Bool)) → RMap → List HistRec × RMap
  | [], m => ([], m)
  | (gid, ps) :: rest, m =>
    if ps.length ≠ 10 then recompute fuel rest m
    else
      match process_game fuel gid ps m with
      | (m1, .error _) => recompute fuel rest m1
      | (m1, .ok lst) =>
        let r := recompute fuel rest m1
        (lst.map (histOf gid) ++ r.1, r.2)

/-- Positivity of the mutable fields guarded by the data-model invariant. -/
def posPR (p : PlayerRating) : Prop := 0 < p.rd ∧ 0 < p.sigma

/-- All rows present in a rating map satisfy the positivity invariant. -/
def mapPos (m : RMap) : Prop := ∀ pid q, m pid = some q → posPR q

/-- A concrete game in which all ten players share the winning outcome. -/
def allWonGame : List (Int × Bool) :=
  [(1, true), (2, true), (3, true), (4, true), (5, true),
   (6, true), (7, true), (8, true), (9, true), (10, true)]

/-- The empty rating map. -/
def emptyMap : RMap := fun _ => none

/-- A concrete game with the canonical 7-versus-3 team split. -/
def game73 : List (Int × Bool) :=
  [(1, true), (2, true), (3, true), (4, true), (5, true), (6, true),
   (7, true), (8, false), (9, false), (10, false)]

/-- All rows recorded in a tentative-results dict satisfy the invariant. -/
def tPos (t : TMap) : Prop :=
  ∀ pid pr, t pid = some pr → posPR pr.1 ∧ posPR pr.2

/-- A concrete subject row with public rd 173.7178 (internal phi 1) and
volatility 1. -/
def p6 : PlayerRating := ⟨0, 1500, 173.7178, 1⟩

/-- A concrete opponent row with internal phi pi over sqrt 3 (so that the
g function evaluates to 1 over sqrt 2) and the same rating as the
subject (so that the E function evaluates to one half). -/
noncomputable def o6 (pid : Int) : PlayerRating :=
  ⟨pid, 1500, 173.7178 * (Real.pi / Real.sqrt 3), 0.06⟩

/-- A concrete micromatch weight chosen so that the volatility solver
bracket degenerates to a point and the Illinois loop exits immediately. -/
noncomputable def w6 : ℝ := 2 / 3

/-- The opposing-team entries visible to one subject player. -/
def oppFilter (players : List (Int × Bool)) (pid : Int) (won : Bool) :
    List (Int × Bool) :=
  players.filter (fun q => q.1 != pid && q.2 != won)

/-- The order-free per-player tentative update of phase 1: what one
iteration of the outer loop of `process_game` computes, expressed
against the pre-game defaulted view of the rating map. -/
noncomputable def stepF (fuel : ℕ) (m : RMap) (players : List (Int × Bool))
    (wc lc : ℕ) (pid : Int) (won : Bool) :
    Except Err (PlayerRating × PlayerRating) :=
  let before := lookupTot m pid
  let oc := if won then lc else wc
  if oc = 0 then .error .zeroDivisionError
  else
    match update_rating fuel before
        ((oppFilter players pid won).map (fun q => lookupTot m q.1))
        (List.replicate (oppFilter players pid won).length
          (if won then (1 : ℝ) else 0))
        (List.replicate (oppFilter players pid won).length
          (WEIGHT_MULTIPLIER / (oc : ℝ))) with
    | .error e => .error e
    | .ok after => .ok (before, after)

-- ===========================================================================
-- Theorems
-- ===========================================================================

/-- Claim C5: for every public-scale pair (rating, rd), converting to the
internal Glicko-2 scale and back via the inverse affine transform returns
(rating, rd) exactly (hence within the 1e-9 tolerance of the claim), and
sigma passes through both conversions unchanged. -/
theorem scale_round_trip (pid : Int) (rating rd sigma : ℝ) :
    PlayerRating.from_glicko2_scale
      (PlayerRating.to_glicko2_scale ⟨pid, rating, rd, sigma⟩).1
      (PlayerRating.to_glicko2_scale ⟨pid, rating, rd, sigma⟩).2 sigma
      = (rating, rd, sigma) := by
  simp only [PlayerRating.to_glicko2_scale, PlayerRating.from_glicko2_scale,
    Prod.mk.injEq]
  exact ⟨by field_simp, by field_simp, trivial⟩

/-- Reduction of `update_rating` on the no-games path. -/
theorem update_rating_empty (fuel : ℕ) (p : PlayerRating)
    (opponents : List PlayerRating) (results weights : List ℝ)
    (hempty : opponents = [] ∨ results = []) :
    update_rating fuel p opponents results weights =
      .ok ⟨p.player_id, (p.rating - 1500) / 173.7178 * 173.7178 + 1500,
        Real.sqrt (p.rd / 173.7178 * (p.rd / 173.7178) + p.sigma * p.sigma)
          * 173.7178, p.sigma⟩ := by
  have hcond : (opponents.isEmpty || results.isEmpty) = true := by
    rcases hempty with h | h <;> simp [h]
  simp [update_rating, hcond, PlayerRating.to_glicko2_scale,
    PlayerRating.from_glicko2_scale, pure, Except.pure]

/-- Claim C7: with an empty opponent list (or empty results list) and
positive prior rd and sigma, `update_rating` succeeds, leaves rating and
sigma unchanged, returns rd equal to sqrt(rd^2 + (173.7178*sigma)^2) on
the public scale, and therefore strictly inflates rd. -/
theorem no_opponents_inflation (fuel : ℕ) (p : PlayerRating)
    (opponents : List PlayerRating) (results weights : List ℝ)
    (hempty : opponents = [] ∨ results = [])
    (hrd : 0 < p.rd) (hs : 0 < p.sigma) :
    evalOk (fun r =>
      r.rating = p.rating ∧ r.sigma = p.sigma ∧
      r.rd = Real.sqrt (p.rd ^ 2 + (173.7178 * p.sigma) ^ 2) ∧
      p.rd < r.rd) (update_rating fuel p opponents results weights) := by
  have hc : (0 : ℝ) < 173.7178 := by norm_num
  have hx : (0 : ℝ) ≤ p.rd / 173.7178 * (p.rd / 173.7178) + p.sigma * p.sigma := by
    positivity
  have hrdeq :
      Real.sqrt (p.rd / 173.7178 * (p.rd / 173.7178) + p.sigma * p.sigma)
        * 173.7178
      = Real.sqrt (p.rd ^ 2 + (173.7178 * p.sigma) ^ 2) := by
    have key : Real.sqrt ((p.rd / 173.7178 * (p.rd / 173.7178)
        + p.sigma * p.sigma) * 173.7178 ^ 2)
        = Real.sqrt (p.rd / 173.7178 * (p.rd / 173.7178) + p.sigma * p.sigma)
          * 173.7178 := by
      rw [Real.sqrt_mul hx, Real.sqrt_sq hc.le]
    rw [← key]
    congr 1
    field_simp
    ring
  have hlt : p.rd < Real.sqrt (p.rd ^ 2 + (173.7178 * p.sigma) ^ 2) := by
    rw [show (p.rd ^ 2 + (173.7178 * p.sigma) ^ 2 : ℝ)
        = (173.7178 * p.sigma) ^ 2 + p.rd ^ 2 by ring]
    have h2 : (0 : ℝ) < (173.7178 * p.sigma) ^ 2 := by positivity
    nlinarith [Real.sq_sqrt (show (0:ℝ) ≤ (173.7178 * p.sigma) ^ 2 + p.rd ^ 2 by positivity),
      Real.sqrt_nonneg ((173.7178 * p.sigma) ^ 2 + p.rd ^ 2), hrd]
  rw [update_rating_empty fuel p opponents results weights hempty]
  simp only [evalOk]
  exact ⟨by field_simp, trivial, hrdeq, hrdeq ▸ hlt⟩

/-- Witness for claim C7 at the default rating row. -/
theorem no_opponents_inflation_witness :
    ((([] : List PlayerRating) = [] ∨ ([] : List ℝ) = []) ∧
      0 < (initPR 0).rd ∧ 0 < (initPR 0).sigma) ∧
    evalOk (fun r =>
      r.rating = (initPR 0).rating ∧ r.sigma = (initPR 0).sigma ∧
      r.rd = Real.sqrt ((initPR 0).rd ^ 2 + (173.7178 * (initPR 0).sigma) ^ 2) ∧
      (initPR 0).rd < r.rd) (update_rating 0 (initPR 0) [] [] []) :=
  ⟨⟨Or.inl rfl, by norm_num [initPR, INITIAL_RD], by norm_num [initPR, INITIAL_SIGMA]⟩,
    no_opponents_inflation 0 (initPR 0) [] [] [] (Or.inl rfl)
      (by norm_num [initPR, INITIAL_RD]) (by norm_num [initPR, INITIAL_SIGMA])⟩

/-- Claim C2 (code divergence): on a 10-player game in which every player
won (the losing team has size 0), `process_game` does not reach the
no-games path of `update_rating`; it raises `ZeroDivisionError` computing
`WEIGHT_MULTIPLIER / opponent_count` with `opponent_count = 0`. -/
theorem team_size_zero_raises :
    (process_game 1 7 allWonGame emptyMap).2 = .error .zeroDivisionError := by
  rfl

/-- Claim C8: a game whose player count is not 10 makes `process_game`
raise a `ValueError` identifying the game and leave the rating map
untouched, and the recompute loop skips the game entirely — no history
records, an unchanged running map, and processing continues with the
remaining games. -/
theorem malformed_game_skipped (fuel : ℕ) (gid : Int) (ps : List (Int × Bool))
    (rest : List (Int × List (Int × Bool))) (m : RMap)
    (h : ps.length ≠ 10) :
    process_game fuel gid ps m = (m, .error (.valueError gid)) ∧
    recompute fuel ((gid, ps) :: rest) m = recompute fuel rest m := by
  constructor
  · simp [process_game, h]
  · simp [recompute, h]

/-- Witness for claim C8 on a 9-player game. -/
theorem malformed_game_skipped_witness :
    ([(1, true), (2, true), (3, true), (4, true), (5, true),
      (6, true), (7, false), (8, false), (9, false)] :
        List (Int × Bool)).length ≠ 10 ∧
    (process_game 0 5 [(1, true), (2, true), (3, true), (4, true), (5, true),
        (6, true), (7, false), (8, false), (9, false)] emptyMap
      = (emptyMap, .error (.valueError 5)) ∧
    recompute 0 [(5, [(1, true), (2, true), (3, true), (4, true), (5, true),
        (6, true), (7, false), (8, false), (9, false)])] emptyMap
      = recompute 0 [] emptyMap) :=
  ⟨by decide,
    malformed_game_skipped 0 5 _ [] emptyMap (by decide)⟩

/-- The result list of phase 3 reads only the tentative dict: one entry
per `players_data` element, the final rating being the tentative rating
minus the correction. -/
theorem phase3_list (c : ℝ) (t : TMap) :
    ∀ (ps : List (Int × Bool)) (m : RMap),
      (phase3 c t ps m).1 = ps.map (fun q =>
        (q.1, ((t q.1).getD (initPR q.1, initPR q.1)).1,
          (⟨q.1, ((t q.1).getD (initPR q.1, initPR q.1)).2.rating - c,
            ((t q.1).getD (initPR q.1, initPR q.1)).2.rd,
            ((t q.1).getD (initPR q.1, initPR q.1)).2.sigma⟩ : PlayerRating))) := by
  intro ps
  induction ps with
  | nil => intro m; simp [phase3]
  | cons a rest ih => intro m; simp [phase3, ih]

/-- Summing a constant-shifted map over a list. -/
theorem sum_map_sub_const {α : Type _} (l : List α) (d : α → ℝ) (c : ℝ) :
    (l.map (fun q => d q - c)).sum = (l.map d).sum - l.length * c := by
  induction l with
  | nil => simp
  | cons a l ih => simp [ih]; ring

/-- Claim C1: on a 10-player game with distinct players and two nonempty
teams, whenever `process_game` completes, the ten post-normalization
rating deltas sum to exactly 0 (hence within the 1e-6 tolerance of the
claim), independent of team sizes, prior ratings, or uncertainties. -/
theorem zero_sum_closure (fuel : ℕ) (gid : Int)
    (players : List (Int × Bool)) (m : RMap)
    (hlen : players.length = 10)
    (_hnodup : (players.map Prod.fst).Nodup)
    (_hw : (players.filter (fun q => q.2)).length ≠ 0)
    (_hl : (players.filter (fun q => !q.2)).length ≠ 0) :
    holdsOk (fun lst =>
        (lst.map (fun e => e.2.2.rating - e.2.1.rating)).sum = 0)
      (process_game fuel gid players m).2 := by
  simp only [process_game, hlen]
  norm_num
  rcases hp : phase1 fuel players
      ((players.filter (fun q => q.2)).length)
      ((players.filter (fun q => !q.2)).length) players m (fun _ => none) with
    ⟨m1, exc⟩
  rw [hp]
  cases exc with
  | error e => simp [holdsOk]
  | ok t =>
    simp only [holdsOk, phase3_list, List.map_map]
    have hcomp :
        ((fun e : Int × PlayerRating × PlayerRating =>
            e.2.2.rating - e.2.1.rating) ∘ (fun q : Int × Bool =>
          (q.1, ((t q.1).getD (initPR q.1, initPR q.1)).1,
            (⟨q.1, ((t q.1).getD (initPR q.1, initPR q.1)).2.rating
                - totalChange t players / 10,
              ((t q.1).getD (initPR q.1, initPR q.1)).2.rd,
              ((t q.1).getD (initPR q.1, initPR q.1)).2.sigma⟩ : PlayerRating))))
        = fun q : Int × Bool =>
            (((t q.1).getD (initPR q.1, initPR q.1)).2.rating
              - ((t q.1).getD (initPR q.1, initPR q.1)).1.rating)
            - totalChange t players / 10 := by
      funext q
      simp
      ring
    rw [hcomp, sum_map_sub_const players
      (fun q => ((t q.1).getD (initPR q.1, initPR q.1)).2.rating
        - ((t q.1).getD (initPR q.1, initPR q.1)).1.rating)
      (totalChange t players / 10), hlen]
    have htc : (players.map (fun q =>
        ((t q.1).getD (initPR q.1, initPR q.1)).2.rating
          - ((t q.1).getD (initPR q.1, initPR q.1)).1.rating)).sum
        = totalChange t players := by
      simp [totalChange]
    rw [htc]
    ring

/-- Witness for claim C1 on a concrete 7-versus-3 game. -/
theorem zero_sum_closure_witness :
    (([(1, true), (2, true), (3, true), (4, true), (5, true), (6, true),
        (7, true), (8, false), (9, false), (10, false)] :
          List (Int × Bool)).length = 10 ∧
      (([(1, true), (2, true), (3, true), (4, true), (5, true), (6, true),
        (7, true), (8, false), (9, false), (10, false)] :
          List (Int × Bool)).map Prod.fst).Nodup) ∧
    holdsOk (fun lst =>
        (lst.map (fun e => e.2.2.rating - e.2.1.rating)).sum = 0)
      (process_game 3 1 [(1, true), (2, true), (3, true), (4, true), (5, true),
        (6, true), (7, true), (8, false), (9, false), (10, false)] emptyMap).2 :=
  ⟨⟨by decide, by decide⟩,
    zero_sum_closure 3 1 _ emptyMap (by decide) (by decide) (by decide) (by decide)⟩

/-- Default construction never changes the defaulted view of the map. -/
theorem ensure_lookupTot (m : RMap) (pid x : Int) :
    lookupTot (ensure m pid) x = lookupTot m x := by
  unfold ensure lookupTot
  cases h : m pid with
  | some q => rfl
  | none =>
    by_cases hx : x = pid
    · subst hx; simp [Function.update_same, h]
    · simp [Function.update_noteq hx]

/-- In a list with distinct first components, the second component is
determined by the first. -/
theorem nodup_keys_eq {l : List (Int × Bool)} (h : (l.map Prod.fst).Nodup)
    {a : Int} {b₁ b₂ : Bool} (h1 : (a, b₁) ∈ l) (h2 : (a, b₂) ∈ l) :
    b₁ = b₂ := by
  induction l with
  | nil => cases h1
  | cons x rest ih =>
    simp only [List.map_cons, List.nodup_cons] at h
    rcases List.mem_cons.mp h1 with e1 | e1 <;>
      rcases List.mem_cons.mp h2 with e2 | e2
    · exact congrArg Prod.snd (e1.trans e2.symm)
    · exact absurd (List.mem_map_of_mem Prod.fst e2)
        (by rw [← e1] at h; exact h.1)
    · exact absurd (List.mem_map_of_mem Prod.fst e1)
        (by rw [← e2] at h; exact h.1)
    · exact ih h.2 e1 e2

/-- Characterization of the inner opponent loop: it only extends the
rating map by default rows, and it produces exactly one opponent per
opposing-team entry of `players_data` (teammates and the subject are
skipped), a constant result list, and a constant weight list. -/
theorem innerFold_spec (pid : Int) (won : Bool) (w : ℝ) :
    ∀ (ps : List (Int × Bool)) (m : RMap),
      (∀ x, lookupTot (innerFold pid won w ps m).1 x = lookupTot m x) ∧
      (innerFold pid won w ps m).2.1
        = (ps.filter (fun q => q.1 != pid && q.2 != won)).map
            (fun q => lookupTot m q.1) ∧
      (innerFold pid won w ps m).2.2.1
        = List.replicate (ps.filter (fun q => q.1 != pid && q.2 != won)).length
            (if won then (1 : ℝ) else 0) ∧
      (innerFold pid won w ps m).2.2.2
        = List.replicate (ps.filter (fun q => q.1 != pid && q.2 != won)).length w := by
  intro ps
  induction ps with
  | nil => intro m; simp [innerFold]
  | cons q rest ih =>
    intro m
    rcases q with ⟨oid, owon⟩
    by_cases h1 : oid = pid
    · subst h1
      simpa [innerFold, List.filter_cons] using ih m
    · by_cases h2 : owon = won
      · subst h2
        simpa [innerFold, h1, List.filter_cons] using ih m
      · have hkeep : ((oid, owon).1 != pid && (oid, owon).2 != won) = true := by
          simp [h1, h2]
        rcases ih (ensure m oid) with ⟨ihm, iho, ihr, ihw⟩
        have hmap :
            (rest.filter (fun q => q.1 != pid && q.2 != won)).map
              (fun q => lookupTot (ensure m oid) q.1)
            = (rest.filter (fun q => q.1 != pid && q.2 != won)).map
              (fun q => lookupTot m q.1) :=
          List.map_congr_left (fun a _ => ensure_lookupTot m oid a.1)
        refine ⟨?_, ?_, ?_, ?_⟩
        · intro x
          simp only [innerFold, h1, h2, if_neg, ite_false]
          rw [ihm x, ensure_lookupTot]
        · simp only [innerFold, h1, h2, ite_false, List.filter_cons, hkeep,
            cond_true, List.map_cons, if_true]
          rw [iho, hmap, ensure_lookupTot]
        · simp only [innerFold, h1, h2, ite_false, List.filter_cons, hkeep,
            cond_true, List.length_cons, List.replicate_succ, if_true]
          rw [ihr]
        · simp only [innerFold, h1, h2, ite_false, List.filter_cons, hkeep,
            cond_true, List.length_cons, List.replicate_succ, if_true]
          rw [ihw]

/-- The opponent count used by `process_game` is the size of the team
with the opposite outcome. -/
theorem count_opp (players : List (Int × Bool)) (won : Bool) :
    (if won then (players.filter (fun q => !q.2)).length
      else (players.filter (fun q => q.2)).length)
    = (players.filter (fun q => q.2 != won)).length := by
  cases won <;> simp

/-- With distinct player ids, the self-exclusion test is redundant on
the opposing team: the subject only occurs with its own outcome. -/
theorem opp_filter_eq (players : List (Int × Bool)) (pid : Int) (won : Bool)
    (hnodup : (players.map Prod.fst).Nodup) (hmem : (pid, won) ∈ players) :
    players.filter (fun q => q.1 != pid && q.2 != won)
      = players.filter (fun q => q.2 != won) := by
  apply List.filter_congr
  intro q hq
  cases hqw : (q.2 != won) with
  | false => simp [hqw]
  | true =>
    have hne : q.1 ≠ pid := by
      intro hcontra
      have hq2 : (pid, q.2) ∈ players := by
        rw [← hcontra]; exact hq
      have := nodup_keys_eq hnodup hq2 hmem
      simp [this] at hqw
    simp [hqw, hne]

/-- Claim C3: for a game with distinct players and a nonempty opposing
team, the micromatch expansion of `process_game` gives the subject
exactly one pseudo-match per opposing-team member (none against
teammates or itself), every weight equal to `WEIGHT_MULTIPLIER` divided
by the size of the other team, and total outgoing weight exactly
`WEIGHT_MULTIPLIER`. -/
theorem weight_symmetry (players : List (Int × Bool)) (m : RMap)
    (pid : Int) (won : Bool)
    (hmem : (pid, won) ∈ players)
    (hnodup : (players.map Prod.fst).Nodup)
    (hoc : (players.filter (fun q => q.2 != won)).length ≠ 0) :
    (innerFold pid won
        (WEIGHT_MULTIPLIER /
          ((players.filter (fun q => q.2 != won)).length : ℝ)) players m).2.1
      = (players.filter (fun q => q.2 != won)).map (fun q => lookupTot m q.1) ∧
    (innerFold pid won
        (WEIGHT_MULTIPLIER /
          ((players.filter (fun q => q.2 != won)).length : ℝ)) players m).2.1.length
      = (players.filter (fun q => q.2 != won)).length ∧
    (innerFold pid won
        (WEIGHT_MULTIPLIER /
          ((players.filter (fun q => q.2 != won)).length : ℝ)) players m).2.2.2
      = List.replicate (players.filter (fun q => q.2 != won)).length
          (WEIGHT_MULTIPLIER /
            ((players.filter (fun q => q.2 != won)).length : ℝ)) ∧
    (innerFold pid won
        (WEIGHT_MULTIPLIER /
          ((players.filter (fun q => q.2 != won)).length : ℝ)) players m).2.2.2.sum
      = WEIGHT_MULTIPLIER := by
  rcases innerFold_spec pid won
      (WEIGHT_MULTIPLIER / ((players.filter (fun q => q.2 != won)).length : ℝ))
      players m with ⟨_, ho, _, hw⟩
  rw [opp_filter_eq players pid won hnodup hmem] at ho hw
  refine ⟨ho, by rw [ho]; simp, hw, ?_⟩
  rw [hw, List.sum_replicate, nsmul_eq_mul]
  have hc : ((players.filter (fun q => q.2 != won)).length : ℝ) ≠ 0 := by
    exact_mod_cast hoc
  field_simp

/-- Witness for claim C3: player 1 on the 7-player winning side of the
concrete 7-versus-3 game. -/
theorem weight_symmetry_witness :
    ((1, true) ∈ game73 ∧ (game73.map Prod.fst).Nodup ∧
      (game73.filter (fun q => q.2 != true)).length ≠ 0) ∧
    ((innerFold 1 true
        (WEIGHT_MULTIPLIER /
          ((game73.filter (fun q => q.2 != true)).length : ℝ)) game73 emptyMap).2.1
      = (game73.filter (fun q => q.2 != true)).map (fun q => lookupTot emptyMap q.1) ∧
    (innerFold 1 true
        (WEIGHT_MULTIPLIER /
          ((game73.filter (fun q => q.2 != true)).length : ℝ)) game73 emptyMap).2.1.length
      = (game73.filter (fun q => q.2 != true)).length ∧
    (innerFold 1 true
        (WEIGHT_MULTIPLIER /
          ((game73.filter (fun q => q.2 != true)).length : ℝ)) game73 emptyMap).2.2.2
      = List.replicate (game73.filter (fun q => q.2 != true)).length
          (WEIGHT_MULTIPLIER /
            ((game73.filter (fun q => q.2 != true)).length : ℝ)) ∧
    (innerFold 1 true
        (WEIGHT_MULTIPLIER /
          ((game73.filter (fun q => q.2 != true)).length : ℝ)) game73 emptyMap).2.2.2.sum
      = WEIGHT_MULTIPLIER) :=
  ⟨⟨by decide, by decide, by decide⟩,
    weight_symmetry game73 emptyMap 1 true (by decide) (by decide) (by decide)⟩

/-- Case analysis of a failing bind in the `Except Err` monad. -/
theorem except_bind_error {α β : Type _} (x : Except Err α) (f : α → Except Err β)
    (e : Err) (h : x >>= f = .error e) :
    x = .error e ∨ ∃ a, x = .ok a ∧ f a = .error e := by
  cases x with
  | error e1 =>
    left
    simp only [Bind.bind, Except.bind] at h
    have he : e1 = e := by injection h
    rw [he]
  | ok a =>
    right
    exact ⟨a, rfl, by simpa only [Bind.bind, Except.bind] using h⟩

/-- Division can only fail with `ZeroDivisionError`. -/
theorem pydiv_error {x y : ℝ} {e : Err} (h : pydiv x y = .error e) :
    e = .zeroDivisionError := by
  unfold pydiv at h
  by_cases hy : y = 0 <;> simp [hy] at h
  exact h.symm

/-- The logarithm can only fail with the math-domain `ValueError`. -/
theorem pylog_error {x : ℝ} {e : Err} (h : pylog x = .error e) :
    e = .mathDomainError := by
  unfold pylog at h
  by_cases hx : x ≤ 0 <;> simp [hx] at h
  exact h.symm

/-- The solver objective function can only fail with `ZeroDivisionError`. -/
theorem fSolver_error {phi v delta a x : ℝ} {e : Err}
    (h : fSolver phi v delta a x = .error e) : e = .zeroDivisionError := by
  unfold fSolver at h
  rcases except_bind_error _ _ _ h with h1 | ⟨a1, _, h1⟩
  · exact pydiv_error h1
  · rcases except_bind_error _ _ _ h1 with h2 | ⟨a2, _, h2⟩
    · exact pydiv_error h2
    · simp [pure, Except.pure] at h2

/-- The bracket-search loop can only fail with an arithmetic exception
or the fuel marker; it carries no iteration cap of its own. -/
theorem kSearch_error {phi v delta a : ℝ} {e : Err} :
    ∀ {fuel k : ℕ}, kSearch phi v delta a fuel k = .error e →
      e = .zeroDivisionError ∨ e = .diverge := by
  intro fuel
  induction fuel with
  | zero =>
    intro k h
    simp only [kSearch] at h
    right
    exact (Except.error.injEq _ _ ▸ h).symm
  | succ n ih =>
    intro k h
    simp only [kSearch] at h
    rcases except_bind_error _ _ _ h with h1 | ⟨fv, _, h1⟩
    · exact Or.inl (fSolver_error h1)
    · by_cases hfv : fv < 0
      · rw [if_pos hfv] at h1
        exact ih h1
      · rw [if_neg hfv] at h1
        simp [pure, Except.pure] at h1

/-- The Illinois loop can only fail with an arithmetic exception or the
fuel marker; it carries no iteration cap of its own. -/
theorem illinois_error {phi v delta a : ℝ} {e : Err} :
    ∀ {fuel : ℕ} {A B fA fB : ℝ}, illinois phi v delta a fuel A B fA fB = .error e →
      e = .zeroDivisionError ∨ e = .diverge := by
  intro fuel
  induction fuel with
  | zero =>
    intro A B fA fB h
    simp only [illinois] at h
    by_cases hc : |B - A| > EPSILON
    · rw [if_pos hc] at h
      right
      exact (Except.error.injEq _ _ ▸ h).symm
    · rw [if_neg hc] at h
      simp [pure, Except.pure] at h
  | succ n ih =>
    intro A B fA fB h
    simp only [illinois] at h
    by_cases hc : |B - A| > EPSILON
    · rw [if_pos hc] at h
      rcases except_bind_error _ _ _ h with h1 | ⟨q, _, h1⟩
      · exact Or.inl (pydiv_error h1)
      · rcases except_bind_error _ _ _ h1 with h2 | ⟨fC, _, h2⟩
        · exact Or.inl (fSolver_error h2)
        · by_cases hs : fC * fB < 0
          · rw [if_pos hs] at h2
            exact ih h2
          · rw [if_neg hs] at h2
            exact ih h2
    · rw [if_neg hc] at h
      simp [pure, Except.pure] at h

/-- Claim C4 (code divergence): neither loop of `compute_new_sigma` has
an iteration safety cap, and the solver never raises a diagnosable
non-convergence failure.  Every possible failure of the solver is an
arithmetic exception inherited from Python division or logarithm, or
the fuel marker that models a loop still iterating; in particular the
`ValueError` class of diagnosable failures is never produced. -/
theorem solver_no_convergence_failure (fuel : ℕ) (phi sigma v delta : ℝ)
    (e : Err) (h : compute_new_sigma fuel phi sigma v delta = .error e) :
    e = .zeroDivisionError ∨ e = .mathDomainError ∨ e = .diverge := by
  unfold compute_new_sigma at h
  rcases except_bind_error _ _ _ h with h1 | ⟨a, _, h1⟩
  · exact Or.inr (Or.inl (pylog_error h1))
  · rcases except_bind_error _ _ _ h1 with h2 | ⟨B, _, h2⟩
    · unfold bracketB at h2
      by_cases hb : delta * delta > phi * phi + v
      · rw [if_pos hb] at h2
        exact Or.inr (Or.inl (pylog_error h2))
      · rw [if_neg hb] at h2
        rcases except_bind_error _ _ _ h2 with h3 | ⟨k, _, h3⟩
        · rcases kSearch_error h3 with h4 | h4
          · exact Or.inl h4
          · exact Or.inr (Or.inr h4)
        · simp [pure, Except.pure] at h3
    · rcases except_bind_error _ _ _ h2 with h3 | ⟨fA, _, h3⟩
      · exact Or.inl (fSolver_error h3)
      · rcases except_bind_error _ _ _ h3 with h4 | ⟨fB, _, h4⟩
        · exact Or.inl (fSolver_error h4)
        · rcases illinois_error h4 with h5 | h5
          · exact Or.inl h5
          · exact Or.inr (Or.inr h5)

/-- Witness for claim C4: the solver called directly with `v = 0` fails
with `ZeroDivisionError`, never with a convergence diagnostic. -/
theorem solver_no_convergence_failure_witness :
    compute_new_sigma 1 1 1 0 0 = .error .zeroDivisionError ∧
    (Err.zeroDivisionError = .zeroDivisionError ∨
      Err.zeroDivisionError = .mathDomainError ∨
      Err.zeroDivisionError = .diverge) := by
  have h : compute_new_sigma 1 1 1 0 0 = .error .zeroDivisionError := by
    norm_num [compute_new_sigma, bracketB, pylog, kSearch, fSolver, pydiv,
      Bind.bind, Except.bind]
  exact ⟨h, solver_no_convergence_failure 1 1 1 0 0 .zeroDivisionError h⟩

/-- Case analysis of a succeeding bind in the `Except Err` monad. -/
theorem except_bind_ok {α β : Type _} {x : Except Err α} {f : α → Except Err β}
    {b : β} (h : x >>= f = .ok b) : ∃ a, x = .ok a ∧ f a = .ok b := by
  cases x with
  | error e1 => simp [Bind.bind, Except.bind] at h
  | ok a => exact ⟨a, rfl, by simpa only [Bind.bind, Except.bind] using h⟩

/-- Lifting a property of a function of the bound value through a
bind-then-pure continuation. -/
theorem holdsOk_bind_pure {α β : Type _} (x : Except Err α) (g : α → β)
    (P : β → Prop) (h : ∀ a, x = .ok a → P (g a)) :
    holdsOk P (x >>= fun a => pure (g a)) := by
  cases hx : x with
  | error e => simp [Bind.bind, Except.bind, holdsOk]
  | ok a =>
    simp only [Bind.bind, Except.bind, pure, Except.pure, holdsOk]
    exact h a hx

/-- The variance estimate of the source is positive for every input:
either the large sentinel, or the inverse of a sum at least EPSILON. -/
theorem compute_variance_pos (mu : ℝ) (opps : List (ℝ × ℝ)) (ws : List ℝ) :
    0 < compute_variance mu opps ws := by
  simp only [compute_variance]
  split
  · norm_num
  · next h =>
    have he : (0 : ℝ) < EPSILON := by norm_num [EPSILON]
    exact one_div_pos.mpr (lt_of_lt_of_le he (not_lt.mp h))

/-- Every successful outcome of the Illinois loop is an exponential,
hence positive. -/
theorem illinois_ok_pos {phi v delta a : ℝ} :
    ∀ {fuel : ℕ} {A B fA fB s : ℝ},
      illinois phi v delta a fuel A B fA fB = .ok s → 0 < s := by
  intro fuel
  induction fuel with
  | zero =>
    intro A B fA fB s h
    simp only [illinois] at h
    by_cases hc : |B - A| > EPSILON
    · rw [if_pos hc] at h; cases h
    · rw [if_neg hc] at h
      simp only [pure, Except.pure, Except.ok.injEq] at h
      rw [← h]
      exact Real.exp_pos _
  | succ n ih =>
    intro A B fA fB s h
    simp only [illinois] at h
    by_cases hc : |B - A| > EPSILON
    · rw [if_pos hc] at h
      obtain ⟨q, _, h⟩ := except_bind_ok h
      obtain ⟨fC, _, h⟩ := except_bind_ok h
      by_cases hs : fC * fB < 0
      · rw [if_pos hs] at h; exact ih h
      · rw [if_neg hs] at h; exact ih h
    · rw [if_neg hc] at h
      simp only [pure, Except.pure, Except.ok.injEq] at h
      rw [← h]
      exact Real.exp_pos _

/-- Every successful outcome of the volatility solver is positive. -/
theorem compute_new_sigma_ok_pos {fuel : ℕ} {phi sigma v delta s : ℝ}
    (h : compute_new_sigma fuel phi sigma v delta = .ok s) : 0 < s := by
  unfold compute_new_sigma at h
  obtain ⟨a, _, h⟩ := except_bind_ok h
  obtain ⟨B, _, h⟩ := except_bind_ok h
  obtain ⟨fA, _, h⟩ := except_bind_ok h
  obtain ⟨fB, _, h⟩ := except_bind_ok h
  exact illinois_ok_pos h

/-- One-player invariant preservation: positive rd and sigma in, and
every successful `update_rating` outcome has positive rd and sigma. -/
theorem update_rating_pos (fuel : ℕ) (p : PlayerRating)
    (opponents : List PlayerRating) (results weights : List ℝ)
    (_hrd : 0 < p.rd) (hs : 0 < p.sigma) :
    holdsOk posPR (update_rating fuel p opponents results weights) := by
  by_cases hemp : (opponents.isEmpty || results.isEmpty) = true
  · have hempty : opponents = [] ∨ results = [] := by
      cases hO : opponents.isEmpty with
      | true => exact Or.inl (List.isEmpty_iff.mp hO)
      | false =>
        cases hR : results.isEmpty with
        | true => exact Or.inr (List.isEmpty_iff.mp hR)
        | false => rw [hO, hR] at hemp; simp at hemp
    rw [update_rating_empty fuel p opponents results weights hempty]
    refine ⟨?_, hs⟩
    have hx : 0 < p.rd / 173.7178 * (p.rd / 173.7178) + p.sigma * p.sigma := by
      nlinarith [mul_self_nonneg (p.rd / 173.7178), mul_pos hs hs]
    have := Real.sqrt_pos.mpr hx
    nlinarith
  · simp only [update_rating, hemp, Bool.false_eq_true, if_false]
    apply holdsOk_bind_pure
    intro ns hns
    have hσ := compute_new_sigma_ok_pos hns
    simp only [posPR, PlayerRating.from_glicko2_scale]
    refine ⟨?_, hσ⟩
    have hV := compute_variance_pos p.to_glicko2_scale.1
      (opponents.map (fun o => o.to_glicko2_scale)) weights
    have hS : 0 < Real.sqrt (p.to_glicko2_scale.2 * p.to_glicko2_scale.2 + ns * ns) :=
      Real.sqrt_pos.mpr (by
        nlinarith [mul_self_nonneg p.to_glicko2_scale.2, mul_pos hσ hσ])
    have h1 : 0 < 1 / (Real.sqrt (p.to_glicko2_scale.2 * p.to_glicko2_scale.2 + ns * ns)
        * Real.sqrt (p.to_glicko2_scale.2 * p.to_glicko2_scale.2 + ns * ns))
        + 1 / compute_variance p.to_glicko2_scale.1
            (opponents.map (fun o => o.to_glicko2_scale)) weights := by
      have ha := one_div_pos.mpr (mul_pos hS hS)
      have hb := one_div_pos.mpr hV
      linarith
    have h2 := one_div_pos.mpr (Real.sqrt_pos.mpr h1)
    exact mul_pos h2 (by norm_num)

/-- Successful `update_rating` outcomes preserve positivity. -/
theorem update_rating_ok_pos {fuel : ℕ} {p : PlayerRating}
    {opponents : List PlayerRating} {results weights : List ℝ} {q : PlayerRating}
    (hrd : 0 < p.rd) (hs : 0 < p.sigma)
    (h : update_rating fuel p opponents results weights = .ok q) : posPR q := by
  have := update_rating_pos fuel p opponents results weights hrd hs
  rw [h] at this
  exact this

/-- The default row satisfies the positivity invariant. -/
theorem initPR_pos (pid : Int) : posPR (initPR pid) := by
  constructor <;> norm_num [initPR, INITIAL_RD, INITIAL_SIGMA]

/-- Default construction preserves the map invariant. -/
theorem ensure_pos {m : RMap} (hm : mapPos m) (pid : Int) :
    mapPos (ensure m pid) := by
  intro x q hx
  unfold ensure at hx
  cases h : m pid with
  | some r =>
    rw [h] at hx
    exact hm x q hx
  | none =>
    rw [h] at hx
    have hx' : Function.update m pid (some (initPR pid)) x = some q := hx
    by_cases hxp : x = pid
    · subst hxp
      rw [Function.update_same] at hx'
      injection hx' with hq
      rw [← hq]
      exact initPR_pos x
    · rw [Function.update_noteq hxp] at hx'
      exact hm x q hx'

/-- The defaulted lookup always satisfies the positivity invariant. -/
theorem lookupTot_pos {m : RMap} (hm : mapPos m) (pid : Int) :
    posPR (lookupTot m pid) := by
  unfold lookupTot
  cases h : m pid with
  | some q => exact hm pid q h
  | none => exact initPR_pos pid

/-- Writing an invariant-satisfying row preserves the map invariant. -/
theorem update_mapPos {m : RMap} (hm : mapPos m) {q : PlayerRating}
    (hq : posPR q) (pid : Int) :
    mapPos (Function.update m pid (some q)) := by
  intro x r hx
  by_cases hxp : x = pid
  · subst hxp
    rw [Function.update_same] at hx
    injection hx with hr
    rw [← hr]
    exact hq
  · rw [Function.update_noteq hxp] at hx
    exact hm x r hx

/-- The inner opponent loop preserves the map invariant. -/
theorem innerFold_mapPos (pid : Int) (won : Bool) (w : ℝ) :
    ∀ (ps : List (Int × Bool)) (m : RMap), mapPos m →
      mapPos (innerFold pid won w ps m).1 := by
  intro ps
  induction ps with
  | nil => intro m hm; simpa [innerFold] using hm
  | cons q rest ih =>
    intro m hm
    rcases q with ⟨oid, owon⟩
    by_cases h1 : oid = pid
    · subst h1; simpa [innerFold] using ih m hm
    · by_cases h2 : owon = won
      · subst h2; simpa [innerFold, h1] using ih m hm
      · simp only [innerFold, h1, h2, ite_false, if_false]
        exact ih (ensure m oid) (ensure_pos hm oid)

/-- Phase 1 preserves the map invariant and only records
invariant-satisfying tentative rows. -/
theorem phase1_pos (fuel : ℕ) (all : List (Int × Bool)) (wc lc : ℕ) :
    ∀ (rest : List (Int × Bool)) (m : RMap) (t : TMap),
      mapPos m → tPos t →
      mapPos (phase1 fuel all wc lc rest m t).1 ∧
      (∀ t', (phase1 fuel all wc lc rest m t).2 = .ok t' → tPos t') := by
  intro rest
  induction rest with
  | nil =>
    intro m t hm ht
    refine ⟨by simpa [phase1] using hm, ?_⟩
    intro t' h
    simp only [phase1, Except.ok.injEq] at h
    rw [← h]
    exact ht
  | cons q rest ih =>
    intro m t hm ht
    rcases q with ⟨pid, won⟩
    simp only [phase1]
    by_cases hoc : (if won then lc else wc) = 0
    · rw [if_pos hoc]
      refine ⟨ensure_pos hm pid, ?_⟩
      intro t' h
      cases h
    · rw [if_neg hoc]
      have hbefore := lookupTot_pos (ensure_pos hm pid) pid
      split
      · next e heq =>
        refine ⟨innerFold_mapPos pid won _ all (ensure m pid) (ensure_pos hm pid), ?_⟩
        intro t' h
        cases h
      · next after heq =>
        apply ih
        · exact innerFold_mapPos pid won _ all (ensure m pid) (ensure_pos hm pid)
        · intro pid' pr hpr
          by_cases hx : pid' = pid
          · subst hx
            rw [Function.update_same] at hpr
            injection hpr with hpr
            rw [← hpr]
            exact ⟨hbefore, update_rating_ok_pos hbefore.1 hbefore.2 heq⟩
          · rw [Function.update_noteq hx] at hpr
            exact ht pid' pr hpr

/-- Phase 3 preserves the map invariant and emits only
invariant-satisfying rows (normalization changes ratings only). -/
theorem phase3_pos (c : ℝ) (t : TMap) (ht : tPos t) :
    ∀ (ps : List (Int × Bool)) (m : RMap), mapPos m →
      mapPos (phase3 c t ps m).2 ∧
      ∀ e ∈ (phase3 c t ps m).1, posPR e.2.1 ∧ posPR e.2.2 := by
  intro ps
  induction ps with
  | nil => intro m hm; exact ⟨by simpa [phase3] using hm, by simp [phase3]⟩
  | cons q rest ih =>
    intro m hm
    rcases q with ⟨pid, b⟩
    have hpr : posPR ((t pid).getD (initPR pid, initPR pid)).1 ∧
        posPR ((t pid).getD (initPR pid, initPR pid)).2 := by
      cases h : t pid with
      | some pr => simpa [h] using ht pid pr h
      | none => simp [h, initPR_pos]
    have hfin : posPR (⟨pid, ((t pid).getD (initPR pid, initPR pid)).2.rating - c,
        ((t pid).getD (initPR pid, initPR pid)).2.rd,
        ((t pid).getD (initPR pid, initPR pid)).2.sigma⟩ : PlayerRating) :=
      ⟨hpr.2.1, hpr.2.2⟩
    have hrec := ih (Function.update m pid
      (some ⟨pid, ((t pid).getD (initPR pid, initPR pid)).2.rating - c,
        ((t pid).getD (initPR pid, initPR pid)).2.rd,
        ((t pid).getD (initPR pid, initPR pid)).2.sigma⟩))
      (update_mapPos hm hfin pid)
    refine ⟨by simpa [phase3] using hrec.1, ?_⟩
    intro e he
    simp only [phase3, List.mem_cons] at he
    rcases he with he | he
    · rw [he]
      exact ⟨hpr.1, hfin⟩
    · exact hrec.2 e he

/-- Claim C9: positive rd and sigma are preserved by every operation of
the pipeline — any `update_rating` call on a row with positive rd and
sigma, and `process_game` (including zero-sum normalization) on a map
whose rows all satisfy the invariant, produce only rows that satisfy
it again, in the returned results and in the updated rating map. -/
theorem invariants_preserved :
    (∀ (fuel : ℕ) (p : PlayerRating) (opponents : List PlayerRating)
        (results weights : List ℝ), 0 < p.rd → 0 < p.sigma →
      holdsOk posPR (update_rating fuel p opponents results weights)) ∧
    (∀ (fuel : ℕ) (gid : Int) (players : List (Int × Bool)) (m : RMap),
      mapPos m →
      mapPos (process_game fuel gid players m).1 ∧
      holdsOk (fun lst => ∀ e ∈ lst, posPR e.2.1 ∧ posPR e.2.2)
        (process_game fuel gid players m).2) := by
  constructor
  · intro fuel p opponents results weights hrd hs
    exact update_rating_pos fuel p opponents results weights hrd hs
  · intro fuel gid players m hm
    simp only [process_game]
    by_cases hlen : players.length ≠ 10
    · rw [if_pos hlen]
      exact ⟨hm, trivial⟩
    · rw [if_neg hlen]
      have hemptyT : tPos (fun _ => none) := by intro pid pr h; cases h
      have hph := phase1_pos fuel players
        ((players.filter (fun q => q.2)).length)
        ((players.filter (fun q => !q.2)).length) players m (fun _ => none)
        hm hemptyT
      rcases hp : phase1 fuel players
          ((players.filter (fun q => q.2)).length)
          ((players.filter (fun q => !q.2)).length) players m (fun _ => none) with
        ⟨m1, exc⟩
      rw [hp] at hph
      rw [hp]
      cases exc with
      | error e => exact ⟨hph.1, trivial⟩
      | ok t =>
        have ht : tPos t := hph.2 t rfl
        have h3 := phase3_pos (totalChange t players / 10) t ht players m1 hph.1
        exact ⟨h3.1, h3.2⟩

/-- Witness for claim C9: the pipeline on the empty map and the
concrete 7-versus-3 game. -/
theorem invariants_preserved_witness :
    mapPos emptyMap ∧
    (mapPos (process_game 2 1 game73 emptyMap).1 ∧
      holdsOk (fun lst => ∀ e ∈ lst, posPR e.2.1 ∧ posPR e.2.2)
        (process_game 2 1 game73 emptyMap).2) := by
  have hm : mapPos emptyMap := by
    intro pid q h
    cases h
  exact ⟨hm, invariants_preserved.2 2 1 game73 emptyMap hm⟩

/-- Scale conversion of the concrete opponent row. -/
theorem o6_scale (pid : Int) :
    (o6 pid).to_glicko2_scale = (0, Real.pi / Real.sqrt 3) := by
  have hc : (173.7178 : ℝ) ≠ 0 := by norm_num
  simp only [o6, PlayerRating.to_glicko2_scale, Prod.mk.injEq]
  constructor
  · norm_num
  · field_simp
    ring

/-- Scale conversion of the concrete subject row. -/
theorem p6_scale : p6.to_glicko2_scale = (0, 1) := by
  have hc : (173.7178 : ℝ) ≠ 0 := by norm_num
  simp only [p6, PlayerRating.to_glicko2_scale, Prod.mk.injEq]
  constructor
  · norm_num
  · field_simp

/-- The g function at internal deviation pi over sqrt 3. -/
theorem g6 : g_function (Real.pi / Real.sqrt 3) = 1 / Real.sqrt 2 := by
  unfold g_function
  have hπ := Real.pi_ne_zero
  have h3 : Real.sqrt 3 * Real.sqrt 3 = 3 := Real.mul_self_sqrt (by norm_num)
  have key : 1 + 3 * (Real.pi / Real.sqrt 3) * (Real.pi / Real.sqrt 3)
      / (Real.pi * Real.pi) = 2 := by
    rw [mul_assoc, div_mul_div_comm, h3]
    rw [show (3 : ℝ) * (Real.pi * Real.pi / 3) = Real.pi * Real.pi by ring]
    rw [div_self (mul_ne_zero hπ hπ)]
    norm_num
  rw [key]

/-- The E function between equal-rated rows. -/
theorem e6 : e_function 0 0 (Real.pi / Real.sqrt 3) = 1 / 2 := by
  unfold e_function
  norm_num [Real.exp_zero]

/-- The weighted variance at the concrete counterexample input. -/
theorem v6 : compute_variance 0
    [(0, Real.pi / Real.sqrt 3), (0, Real.pi / Real.sqrt 3)] [w6, w6] = 6 := by
  unfold compute_variance
  simp only [List.zip_cons_cons, List.zip_nil_right, List.map_cons, List.map_nil,
    List.sum_cons, List.sum_nil, g6, e6]
  have hs0 : Real.sqrt 2 ≠ 0 := by
    exact ne_of_gt (Real.sqrt_pos.mpr (by norm_num))
  have hss : Real.sqrt 2 * Real.sqrt 2 = 2 := Real.mul_self_sqrt (by norm_num)
  have hsum : w6 * (1 / Real.sqrt 2) * (1 / Real.sqrt 2) * (1 / 2) * (1 - 1 / 2)
      + (w6 * (1 / Real.sqrt 2) * (1 / Real.sqrt 2) * (1 / 2) * (1 - 1 / 2) + 0)
      = 1 / 6 := by
    unfold w6
    field_simp
    linear_combination (-12 : ℝ) * hss
  rw [hsum]
  norm_num [EPSILON]

/-- The weighted delta at the concrete counterexample input. -/
theorem d6 : compute_delta 0 6
    [(0, Real.pi / Real.sqrt 3), (0, Real.pi / Real.sqrt 3)] [1, 1] [w6, w6]
    = 4 / Real.sqrt 2 := by
  unfold compute_delta
  simp only [List.zip_cons_cons, List.zip_nil_right, List.map_cons, List.map_nil,
    List.sum_cons, List.sum_nil, g6, e6]
  have hs0 : Real.sqrt 2 ≠ 0 := by
    exact ne_of_gt (Real.sqrt_pos.mpr (by norm_num))
  unfold w6
  field_simp
  ring

/-- At the concrete counterexample input the solver bracket degenerates
to a point: B equals A, the Illinois loop exits at once, and the new
volatility equals the old one exactly. -/
theorem s6 : compute_new_sigma 1 1 1 6 (4 / Real.sqrt 2) = .ok 1 := by
  have h8 : (4 / Real.sqrt 2 : ℝ) * (4 / Real.sqrt 2) = 8 := by
    rw [div_mul_div_comm, Real.mul_self_sqrt (by norm_num)]
    norm_num
  norm_num [compute_new_sigma, bracketB, pylog, fSolver, pydiv, illinois,
    Bind.bind, Except.bind, h8, Real.log_one, Real.exp_zero, EPSILON,
    pure, Except.pure]

/-- Claim C6 counterexample: a subject with positive rd and large
volatility, two finite-positive-rd equal-rated opponents, a recorded
result per opponent and strictly positive weights, for which
`update_rating` succeeds and returns an rd strictly LARGER than the
prior rd — refuting rd_after < rd_before as claimed. -/
theorem rd_decrease_counterexample :
    (2 ≤ ([o6 1, o6 2] : List PlayerRating).length ∧
      0 < (o6 1).rd ∧ 0 < (o6 2).rd ∧ 0 < w6 ∧ 0 < p6.rd ∧ 0 < p6.sigma) ∧
    evalOk (fun r => p6.rd < r.rd)
      (update_rating 1 p6 [o6 1, o6 2] [1, 1] [w6, w6]) := by
  constructor
  · refine ⟨by norm_num, ?_, ?_, by norm_num [w6], by norm_num [p6], by norm_num [p6]⟩
    · show (0 : ℝ) < 173.7178 * (Real.pi / Real.sqrt 3)
      exact mul_pos (by norm_num)
        (div_pos Real.pi_pos (Real.sqrt_pos.mpr (by norm_num)))
    · show (0 : ℝ) < 173.7178 * (Real.pi / Real.sqrt 3)
      exact mul_pos (by norm_num)
        (div_pos Real.pi_pos (Real.sqrt_pos.mpr (by norm_num)))
  · have hmap : List.map (fun o => o.to_glicko2_scale) [o6 1, o6 2]
        = [(0, Real.pi / Real.sqrt 3), (0, Real.pi / Real.sqrt 3)] := by
      simp [o6_scale]
    have hps : p6.sigma = 1 := rfl
    have hprd : p6.rd = 173.7178 := rfl
    have hcnd : (([o6 1, o6 2] : List PlayerRating).isEmpty
        || ([1, 1] : List ℝ).isEmpty) = false := by simp
    simp only [update_rating, hcnd, Bool.false_eq_true, if_false, hmap, p6_scale,
      hps, v6, d6, s6, Bind.bind, Except.bind, pure, Except.pure, evalOk,
      PlayerRating.from_glicko2_scale]
    have h2 : Real.sqrt ((1 : ℝ) * 1 + 1 * 1) * Real.sqrt ((1 : ℝ) * 1 + 1 * 1)
        = 2 := by
      rw [Real.mul_self_sqrt] <;> norm_num
    rw [hprd, h2]
    have hroot : Real.sqrt (1 / 2 + 1 / 6) < 1 := by
      rw [show (1 / 2 + 1 / 6 : ℝ) = 2 / 3 by norm_num]
      calc Real.sqrt (2 / 3) < Real.sqrt 1 :=
            Real.sqrt_lt_sqrt (by norm_num) (by norm_num)
        _ = 1 := Real.sqrt_one
    have hpos : 0 < Real.sqrt (1 / 2 + 1 / 6) :=
      Real.sqrt_pos.mpr (by norm_num)
    have hone : 1 < 1 / Real.sqrt (1 / 2 + 1 / 6) := by
      rw [lt_div_iff hpos]
      linarith
    nlinarith [hone]

/-- Transformation of the inflated deviation between scales. -/
theorem rd_scale_sqrt (rd s : ℝ) :
    Real.sqrt (rd / 173.7178 * (rd / 173.7178) + s * s) * 173.7178
      = Real.sqrt (rd ^ 2 + (173.7178 * s) ^ 2) := by
  have hc : (0 : ℝ) < 173.7178 := by norm_num
  have hx : (0 : ℝ) ≤ rd / 173.7178 * (rd / 173.7178) + s * s := by
    nlinarith [mul_self_nonneg (rd / 173.7178), mul_self_nonneg s]
  have key : Real.sqrt ((rd / 173.7178 * (rd / 173.7178) + s * s) * 173.7178 ^ 2)
      = Real.sqrt (rd / 173.7178 * (rd / 173.7178) + s * s) * 173.7178 := by
    rw [Real.sqrt_mul hx, Real.sqrt_sq hc.le]
  rw [← key]
  congr 1
  field_simp
  ring

/-- Claim C6 amended: under the hypotheses of the claim, every
successful `update_rating` outcome has an rd strictly below the
no-games inflation path sqrt(rd^2 + (173.7178 * sigma_new)^2) — the
informative variance always shrinks the deviation relative to pure
volatility inflation, but not necessarily below the prior rd. -/
theorem rd_below_no_games_path (fuel : ℕ) (p : PlayerRating)
    (opponents : List PlayerRating) (results weights : List ℝ)
    (hopp : 2 ≤ opponents.length) (hres : results ≠ [])
    (_hopprd : ∀ o ∈ opponents, 0 < o.rd) (_hwpos : ∀ w ∈ weights, 0 < w)
    (hrd : 0 < p.rd) (_hs : 0 < p.sigma) :
    holdsOk (fun r =>
        r.rd < Real.sqrt (p.rd ^ 2 + (173.7178 * r.sigma) ^ 2))
      (update_rating fuel p opponents results weights) := by
  have hone : opponents.isEmpty = false := by
    cases opponents with
    | nil => simp at hopp
    | cons a l => simp
  have htwo : results.isEmpty = false := by
    cases results with
    | nil => simp at hres
    | cons a l => simp
  simp only [update_rating, hone, htwo, Bool.or_self, Bool.false_eq_true, if_false]
  apply holdsOk_bind_pure
  intro ns hns
  simp only [PlayerRating.from_glicko2_scale]
  rw [← rd_scale_sqrt]
  have hφ : 0 < p.to_glicko2_scale.2 := by
    simp only [PlayerRating.to_glicko2_scale]
    positivity
  have hS : 0 < Real.sqrt (p.to_glicko2_scale.2 * p.to_glicko2_scale.2 + ns * ns) :=
    Real.sqrt_pos.mpr (by nlinarith [mul_self_nonneg ns])
  have hV := compute_variance_pos p.to_glicko2_scale.1
    (opponents.map (fun o => o.to_glicko2_scale)) weights
  have hstep : 1 / (Real.sqrt (p.to_glicko2_scale.2 * p.to_glicko2_scale.2 + ns * ns)
      * Real.sqrt (p.to_glicko2_scale.2 * p.to_glicko2_scale.2 + ns * ns))
      < 1 / (Real.sqrt (p.to_glicko2_scale.2 * p.to_glicko2_scale.2 + ns * ns)
        * Real.sqrt (p.to_glicko2_scale.2 * p.to_glicko2_scale.2 + ns * ns))
      + 1 / compute_variance p.to_glicko2_scale.1
          (opponents.map (fun o => o.to_glicko2_scale)) weights := by
    have := one_div_pos.mpr hV
    linarith
  have hbase : 0 < 1 / (Real.sqrt (p.to_glicko2_scale.2 * p.to_glicko2_scale.2 + ns * ns)
      * Real.sqrt (p.to_glicko2_scale.2 * p.to_glicko2_scale.2 + ns * ns)) :=
    one_div_pos.mpr (mul_pos hS hS)
  have hsq : Real.sqrt (1 / (Real.sqrt (p.to_glicko2_scale.2 * p.to_glicko2_scale.2 + ns * ns)
      * Real.sqrt (p.to_glicko2_scale.2 * p.to_glicko2_scale.2 + ns * ns)))
      < Real.sqrt (1 / (Real.sqrt (p.to_glicko2_scale.2 * p.to_glicko2_scale.2 + ns * ns)
        * Real.sqrt (p.to_glicko2_scale.2 * p.to_glicko2_scale.2 + ns * ns))
        + 1 / compute_variance p.to_glicko2_scale.1
            (opponents.map (fun o => o.to_glicko2_scale)) weights) :=
    Real.sqrt_lt_sqrt hbase.le hstep
  have hsqeq : Real.sqrt (1 / (Real.sqrt (p.to_glicko2_scale.2 * p.to_glicko2_scale.2 + ns * ns)
      * Real.sqrt (p.to_glicko2_scale.2 * p.to_glicko2_scale.2 + ns * ns)))
      = 1 / Real.sqrt (p.to_glicko2_scale.2 * p.to_glicko2_scale.2 + ns * ns) := by
    rw [show 1 / (Real.sqrt (p.to_glicko2_scale.2 * p.to_glicko2_scale.2 + ns * ns)
        * Real.sqrt (p.to_glicko2_scale.2 * p.to_glicko2_scale.2 + ns * ns))
      = (1 / Real.sqrt (p.to_glicko2_scale.2 * p.to_glicko2_scale.2 + ns * ns)) ^ 2 by
        field_simp
        ring]
    exact Real.sqrt_sq (by positivity)
  rw [hsqeq] at hsq
  have hlt : 1 / Real.sqrt (1 / (Real.sqrt (p.to_glicko2_scale.2 * p.to_glicko2_scale.2 + ns * ns)
      * Real.sqrt (p.to_glicko2_scale.2 * p.to_glicko2_scale.2 + ns * ns))
      + 1 / compute_variance p.to_glicko2_scale.1
          (opponents.map (fun o => o.to_glicko2_scale)) weights)
      < Real.sqrt (p.to_glicko2_scale.2 * p.to_glicko2_scale.2 + ns * ns) := by
    have hSX : 0 < Real.sqrt (1 / (Real.sqrt (p.to_glicko2_scale.2 * p.to_glicko2_scale.2 + ns * ns)
        * Real.sqrt (p.to_glicko2_scale.2 * p.to_glicko2_scale.2 + ns * ns))
        + 1 / compute_variance p.to_glicko2_scale.1
            (opponents.map (fun o => o.to_glicko2_scale)) weights) :=
      Real.sqrt_pos.mpr (by positivity)
    rw [div_lt_iff hSX]
    have := mul_lt_mul_of_pos_left hsq hS
    rw [mul_one_div, div_self hS.ne.symm] at this
    calc (1 : ℝ)
        = Real.sqrt (p.to_glicko2_scale.2 * p.to_glicko2_scale.2 + ns * ns)
          * (1 / Real.sqrt (p.to_glicko2_scale.2 * p.to_glicko2_scale.2 + ns * ns)) := by
          field_simp
      _ < _ := by
          apply mul_lt_mul_of_pos_left hsq hS
  have hφdiv : p.to_glicko2_scale.2 = p.rd / 173.7178 := rfl
  rw [← hφdiv]
  have h173 : (0 : ℝ) < 173.7178 := by norm_num
  calc 1 / Real.sqrt (1 / (Real.sqrt (p.to_glicko2_scale.2 * p.to_glicko2_scale.2 + ns * ns)
        * Real.sqrt (p.to_glicko2_scale.2 * p.to_glicko2_scale.2 + ns * ns))
        + 1 / compute_variance p.to_glicko2_scale.1
            (opponents.map (fun o => o.to_glicko2_scale)) weights) * 173.7178
      < Real.sqrt (p.to_glicko2_scale.2 * p.to_glicko2_scale.2 + ns * ns) * 173.7178 :=
        (mul_lt_mul_right h173).mpr hlt
    _ = _ := rfl

/-- Positivity of the concrete opponent deviation. -/
theorem o6_rd_pos (pid : Int) : 0 < (o6 pid).rd := by
  show (0 : ℝ) < 173.7178 * (Real.pi / Real.sqrt 3)
  exact mul_pos (by norm_num)
    (div_pos Real.pi_pos (Real.sqrt_pos.mpr (by norm_num)))

/-- Witness for the amended claim C6 at the concrete counterexample
input, on which the full update path runs to completion. -/
theorem rd_below_no_games_path_witness :
    (2 ≤ ([o6 1, o6 2] : List PlayerRating).length ∧
      ([1, 1] : List ℝ) ≠ [] ∧
      (∀ o ∈ ([o6 1, o6 2] : List PlayerRating), 0 < o.rd) ∧
      (∀ w ∈ ([w6, w6] : List ℝ), 0 < w) ∧ 0 < p6.rd ∧ 0 < p6.sigma) ∧
    holdsOk (fun r =>
        r.rd < Real.sqrt (p6.rd ^ 2 + (173.7178 * r.sigma) ^ 2))
      (update_rating 1 p6 [o6 1, o6 2] [1, 1] [w6, w6]) := by
  have hopprd : ∀ o ∈ ([o6 1, o6 2] : List PlayerRating), 0 < o.rd := by
    intro o ho
    rcases List.mem_cons.mp ho with h | h
    · rw [h]; exact o6_rd_pos 1
    · rw [List.mem_singleton.mp h]; exact o6_rd_pos 2
  have hw : ∀ w ∈ ([w6, w6] : List ℝ), 0 < w := by
    intro w hw
    rcases List.mem_cons.mp hw with h | h
    · rw [h]; norm_num [w6]
    · rw [List.mem_singleton.mp h]; norm_num [w6]
  exact ⟨⟨by norm_num, by simp, hopprd, hw, by norm_num [p6], by norm_num [p6]⟩,
    rd_below_no_games_path 1 p6 [o6 1, o6 2] [1, 1] [w6, w6]
      (by norm_num) (by simp) hopprd hw (by norm_num [p6]) (by norm_num [p6])⟩

/-- Zipping a list with a same-length constant list is a map. -/
theorem zip_replicate_self {α β : Type _} (c : β) (l : List α) :
    l.zip (List.replicate l.length c) = l.map (fun x => (x, c)) := by
  induction l with
  | nil => rfl
  | cons x xs ih => simp [List.replicate_succ, ih]

/-- Zipping two constant lists of the same length. -/
theorem replicate_zip_replicate {β γ : Type _} (s : β) (w : γ) (n : ℕ) :
    (List.replicate n s).zip (List.replicate n w) = List.replicate n (s, w) := by
  induction n with
  | zero => rfl
  | succ n ih => simp [List.replicate_succ, ih]

/-- Summing over a zip with one constant list. -/
theorem sum_zip_replicate {α : Type _} (l : List α) (w : ℝ) (f : α × ℝ → ℝ)
    (n : ℕ) (hn : n = l.length) :
    ((l.zip (List.replicate n w)).map f).sum
      = (l.map (fun x => f (x, w))).sum := by
  subst hn
  rw [zip_replicate_self, List.map_map]
  rfl

/-- Summing over a zip with two constant lists. -/
theorem sum_zip3_replicate {α : Type _} (l : List α) (s w : ℝ)
    (f : α × ℝ × ℝ → ℝ) (n : ℕ) (hn : n = l.length) :
    ((l.zip ((List.replicate n s).zip (List.replicate n w))).map f).sum
      = (l.map (fun x => f (x, s, w))).sum := by
  subst hn
  rw [replicate_zip_replicate, zip_replicate_self, List.map_map]
  rfl

/-- The variance sum is invariant under permuting the opponents when
the weights are a constant list. -/
theorem compute_variance_perm (mu : ℝ) {os os' : List (ℝ × ℝ)}
    (h : os.Perm os') (w : ℝ) :
    compute_variance mu os (List.replicate os.length w)
      = compute_variance mu os' (List.replicate os'.length w) := by
  unfold compute_variance
  have hsum :
      ((os.zip (List.replicate os.length w)).map (fun ow =>
        ow.2 * g_function ow.1.2 * g_function ow.1.2
          * e_function mu ow.1.1 ow.1.2 * (1 - e_function mu ow.1.1 ow.1.2))).sum
      = ((os'.zip (List.replicate os'.length w)).map (fun ow =>
        ow.2 * g_function ow.1.2 * g_function ow.1.2
          * e_function mu ow.1.1 ow.1.2 * (1 - e_function mu ow.1.1 ow.1.2))).sum := by
    rw [sum_zip_replicate _ _ _ _ rfl, sum_zip_replicate _ _ _ _ rfl]
    exact List.Perm.sum_eq (h.map _)
  rw [hsum]

/-- The delta sum is invariant under permuting the opponents when the
results and weights are constant lists. -/
theorem compute_delta_perm (mu : ℝ) {os os' : List (ℝ × ℝ)}
    (h : os.Perm os') (v s w : ℝ) :
    compute_delta mu v os (List.replicate os.length s) (List.replicate os.length w)
      = compute_delta mu v os' (List.replicate os'.length s)
          (List.replicate os'.length w) := by
  unfold compute_delta
  have hsum :
      ((os.zip ((List.replicate os.length s).zip (List.replicate os.length w))).map
        (fun orw => orw.2.2 * g_function orw.1.2
          * (orw.2.1 - e_function mu orw.1.1 orw.1.2))).sum
      = ((os'.zip ((List.replicate os'.length s).zip
          (List.replicate os'.length w))).map
        (fun orw => orw.2.2 * g_function orw.1.2
          * (orw.2.1 - e_function mu orw.1.1 orw.1.2))).sum := by
    rw [sum_zip3_replicate _ _ _ _ _ rfl, sum_zip3_replicate _ _ _ _ _ rfl]
    exact List.Perm.sum_eq (h.map _)
  rw [hsum]

/-- `update_rating` with constant result and weight lists is invariant
under permuting the opponents: all its aggregations are sums. -/
theorem update_rating_perm (fuel : ℕ) (p : PlayerRating)
    {os os' : List PlayerRating} (h : os.Perm os') (s w : ℝ)
    (n n' : ℕ) (hn : n = os.length) (hn' : n' = os'.length) :
    update_rating fuel p os (List.replicate n s) (List.replicate n w)
      = update_rating fuel p os' (List.replicate n' s) (List.replicate n' w) := by
  subst hn hn'
  by_cases hos : os = []
  · subst hos
    rw [List.Perm.eq_nil h.symm]
  · have hos' : os' ≠ [] := fun hh => hos (List.Perm.eq_nil (hh ▸ h))
    have hlen0 : os.length ≠ 0 := fun hh => hos (List.length_eq_zero.mp hh)
    have hlen0' : os'.length ≠ 0 := fun hh => hos' (List.length_eq_zero.mp hh)
    have e1 : os.isEmpty = false := by
      cases hh : os.isEmpty
      · rfl
      · exact absurd (List.isEmpty_iff.mp hh) hos
    have e1' : os'.isEmpty = false := by
      cases hh : os'.isEmpty
      · rfl
      · exact absurd (List.isEmpty_iff.mp hh) hos'
    have e2 : (List.replicate os.length s).isEmpty = false := by
      cases hh : (List.replicate os.length s).isEmpty
      · rfl
      · exact absurd ((List.replicate_eq_nil_iff _).mp (List.isEmpty_iff.mp hh)) hlen0
    have e2' : (List.replicate os'.length s).isEmpty = false := by
      cases hh : (List.replicate os'.length s).isEmpty
      · rfl
      · exact absurd ((List.replicate_eq_nil_iff _).mp (List.isEmpty_iff.mp hh)) hlen0'
    have hm : (os.map (fun o => o.to_glicko2_scale)).Perm
        (os'.map (fun o => o.to_glicko2_scale)) := h.map _
    have hlm : os.length = (os.map (fun o => o.to_glicko2_scale)).length :=
      (List.length_map _ _).symm
    have hlm' : os'.length = (os'.map (fun o => o.to_glicko2_scale)).length :=
      (List.length_map _ _).symm
    have hv : compute_variance p.to_glicko2_scale.1
        (os.map (fun o => o.to_glicko2_scale)) (List.replicate os.length w)
        = compute_variance p.to_glicko2_scale.1
          (os'.map (fun o => o.to_glicko2_scale)) (List.replicate os'.length w) := by
      rw [hlm, hlm']
      exact compute_variance_perm _ hm w
    have hδ : ∀ V, compute_delta p.to_glicko2_scale.1 V
        (os.map (fun o => o.to_glicko2_scale))
        (List.replicate os.length s) (List.replicate os.length w)
        = compute_delta p.to_glicko2_scale.1 V
          (os'.map (fun o => o.to_glicko2_scale))
          (List.replicate os'.length s) (List.replicate os'.length w) := by
      intro V
      rw [hlm, hlm']
      exact compute_delta_perm _ hm V s w
    have hws : (((os.map (fun o => o.to_glicko2_scale)).zip
          ((List.replicate os.length s).zip (List.replicate os.length w))).map
        (fun orw => orw.2.2 * g_function orw.1.2
          * (orw.2.1 - e_function p.to_glicko2_scale.1 orw.1.1 orw.1.2))).sum
        = (((os'.map (fun o => o.to_glicko2_scale)).zip
          ((List.replicate os'.length s).zip (List.replicate os'.length w))).map
        (fun orw => orw.2.2 * g_function orw.1.2
          * (orw.2.1 - e_function p.to_glicko2_scale.1 orw.1.1 orw.1.2))).sum := by
      rw [sum_zip3_replicate _ _ _ _ _ hlm, sum_zip3_replicate _ _ _ _ _ hlm']
      exact List.Perm.sum_eq (hm.map _)
    simp only [update_rating, e1, e1', e2, e2', Bool.or_self, Bool.false_eq_true,
      if_false]
    rw [hv, hδ, hws]

/-- The order-free per-player update is invariant under permuting the
game roster. -/
theorem stepF_perm (fuel : ℕ) (m : RMap) {ps ps' : List (Int × Bool)}
    (h : ps.Perm ps') (wc lc : ℕ) (pid : Int) (won : Bool) :
    stepF fuel m ps wc lc pid won = stepF fuel m ps' wc lc pid won := by
  unfold stepF
  by_cases hoc : (if won then lc else wc) = 0
  · rw [if_pos hoc, if_pos hoc]
  · rw [if_neg hoc, if_neg hoc]
    have hfil : (oppFilter ps pid won).Perm (oppFilter ps' pid won) := h.filter _
    have hmap : ((oppFilter ps pid won).map (fun q => lookupTot m q.1)).Perm
        ((oppFilter ps' pid won).map (fun q => lookupTot m q.1)) := hfil.map _
    have hupd := update_rating_perm fuel (lookupTot m pid) hmap
      (if won then (1 : ℝ) else 0)
      (WEIGHT_MULTIPLIER / ((if won then lc else wc : ℕ) : ℝ))
      (oppFilter ps pid won).length (oppFilter ps' pid won).length
      (List.length_map _ _).symm (List.length_map _ _).symm
    rw [hupd]

/-- Characterization of a successful phase 1 run: the rating map keeps
its defaulted view, untouched dict keys keep their value, and every
roster entry gets exactly the order-free per-player tentative result
computed from the pre-game map. -/
theorem phase1_ok_spec (fuel : ℕ) (all : List (Int × Bool)) (wc lc : ℕ) :
    ∀ (rest : List (Int × Bool)) (m m0 : RMap) (t : TMap),
      (∀ x, lookupTot m x = lookupTot m0 x) →
      (rest.map Prod.fst).Nodup →
      ∀ mo tout, phase1 fuel all wc lc rest m t = (mo, .ok tout) →
        (∀ x, lookupTot mo x = lookupTot m0 x) ∧
        (∀ x, x ∉ rest.map Prod.fst → tout x = t x) ∧
        (∀ pid won, (pid, won) ∈ rest →
          ∃ bef aft, stepF fuel m0 all wc lc pid won = .ok (bef, aft) ∧
            tout pid = some (bef, aft)) := by
  intro rest
  induction rest with
  | nil =>
    intro m m0 t hm _ mo tout h
    simp only [phase1, Prod.mk.injEq] at h
    obtain ⟨h1, h2⟩ := h
    injection h2 with h2
    subst h1 h2
    refine ⟨hm, fun x _ => rfl, ?_⟩
    intro pid won hmem
    cases hmem
  | cons q rest ih =>
    rcases q with ⟨pid, won⟩
    intro m m0 t hm hnd mo tout h
    simp only [List.map_cons, List.nodup_cons] at hnd
    obtain ⟨hpid_notin, hnd'⟩ := hnd
    simp only [phase1] at h
    by_cases hoc : (if won then lc else wc) = 0
    · rw [if_pos hoc] at h
      rw [Prod.mk.injEq] at h
      exact absurd h.2 (by simp)
    · rw [if_neg hoc] at h
      have hm1 : ∀ x, lookupTot (ensure m pid) x = lookupTot m0 x :=
        fun x => (ensure_lookupTot m pid x).trans (hm x)
      obtain ⟨ifm, ifo, ifr, ifw⟩ := innerFold_spec pid won
        (WEIGHT_MULTIPLIER / ((if won then lc else wc : ℕ) : ℝ)) all (ensure m pid)
      split at h
      · next e heq =>
        rw [Prod.mk.injEq] at h
        exact absurd h.2 (by simp)
      · next after heq =>
        have hmr : ∀ x, lookupTot
            (innerFold pid won (WEIGHT_MULTIPLIER / ((if won then lc else wc : ℕ) : ℝ))
              all (ensure m pid)).1 x = lookupTot m0 x :=
          fun x => (ifm x).trans (hm1 x)
        obtain ⟨A, B, C⟩ := ih _ m0 _ hmr hnd' mo tout h
        have hosr : (innerFold pid won
            (WEIGHT_MULTIPLIER / ((if won then lc else wc : ℕ) : ℝ))
              all (ensure m pid)).2.1
            = (oppFilter all pid won).map (fun q => lookupTot m0 q.1) := by
          rw [ifo]
          exact List.map_congr_left (fun a _ => hm1 a.1)
        have hcall : update_rating fuel (lookupTot m0 pid)
            ((oppFilter all pid won).map (fun q => lookupTot m0 q.1))
            (List.replicate (oppFilter all pid won).length
              (if won then (1 : ℝ) else 0))
            (List.replicate (oppFilter all pid won).length
              (WEIGHT_MULTIPLIER / ((if won then lc else wc : ℕ) : ℝ)))
            = .ok after := by
          rw [← hosr, ← hm1 pid]
          rw [show List.replicate (oppFilter all pid won).length
              (if won then (1 : ℝ) else 0) = (innerFold pid won
            (WEIGHT_MULTIPLIER / ((if won then lc else wc : ℕ) : ℝ))
              all (ensure m pid)).2.2.1 from ifr.symm]
          rw [show List.replicate (oppFilter all pid won).length
              (WEIGHT_MULTIPLIER / ((if won then lc else wc : ℕ) : ℝ))
              = (innerFold pid won
            (WEIGHT_MULTIPLIER / ((if won then lc else wc : ℕ) : ℝ))
              all (ensure m pid)).2.2.2 from ifw.symm]
          exact heq
        have hstep : stepF fuel m0 all wc lc pid won
            = .ok (lookupTot m0 pid, after) := by
          unfold stepF
          rw [if_neg hoc, hcall]
        refine ⟨A, ?_, ?_⟩
        · intro x hx
          simp only [List.map_cons, List.mem_cons] at hx
          push_neg at hx
          rw [B x hx.2, Function.update_noteq hx.1]
        · intro p2 w2 hmem
          rcases List.mem_cons.mp hmem with hhead | htail
          · injection hhead with hp hw
            rw [hp, hw]
            refine ⟨lookupTot m0 pid, after, hstep, ?_⟩
            rw [B pid hpid_notin, Function.update_same, hm1 pid]
          · exact C p2 w2 htail

/-- Claim C10: because all ten tentative posteriors are computed from
the pre-game rating map (finals are written back only in phase 3), the
per-player results of `process_game` on a game with distinct players
are invariant under any permutation of the input players list — the
result lists of the two runs are permutations of each other, carrying
identical entries per player id. -/
theorem permutation_invariance (fuel : ℕ) (gid : Int)
    (players players' : List (Int × Bool)) (m : RMap)
    (hperm : players.Perm players')
    (hnodup : (players.map Prod.fst).Nodup) :
    bothOk (fun l1 l2 => l1.Perm l2)
      (process_game fuel gid players m).2
      (process_game fuel gid players' m).2 := by
  have hnodup' : (players'.map Prod.fst).Nodup :=
    ((hperm.map Prod.fst).nodup_iff).mp hnodup
  have hlen : players'.length = players.length := hperm.length_eq.symm
  simp only [process_game]
  by_cases hL : players.length ≠ 10
  · rw [if_pos hL, if_pos (by rw [hlen]; exact hL)]
    trivial
  · rw [if_neg hL, if_neg (by rw [hlen]; exact hL)]
    have hwc : (players'.filter (fun q => q.2)).length
        = (players.filter (fun q => q.2)).length := (hperm.filter _).length_eq.symm
    have hlc : (players'.filter (fun q => !q.2)).length
        = (players.filter (fun q => !q.2)).length := (hperm.filter _).length_eq.symm
    rw [hwc, hlc]
    rcases hp1 : phase1 fuel players
        ((players.filter (fun q => q.2)).length)
        ((players.filter (fun q => !q.2)).length) players m (fun _ => none) with
      ⟨m1, exc1⟩
    rcases hp2 : phase1 fuel players'
        ((players.filter (fun q => q.2)).length)
        ((players.filter (fun q => !q.2)).length) players' m (fun _ => none) with
      ⟨m2, exc2⟩
    rw [hp1, hp2]
    cases exc1 with
    | error e => cases exc2 <;> trivial
    | ok t1 =>
      cases exc2 with
      | error e => trivial
      | ok t2 =>
        obtain ⟨A1, B1, C1⟩ := phase1_ok_spec fuel players
          ((players.filter (fun q => q.2)).length)
          ((players.filter (fun q => !q.2)).length) players m m (fun _ => none)
          (fun _ => rfl) hnodup m1 t1 hp1
        obtain ⟨A2, B2, C2⟩ := phase1_ok_spec fuel players'
          ((players.filter (fun q => q.2)).length)
          ((players.filter (fun q => !q.2)).length) players' m m (fun _ => none)
          (fun _ => rfl) hnodup' m2 t2 hp2
        have ht : t1 = t2 := by
          funext x
          by_cases hx : x ∈ players.map Prod.fst
          · rcases List.mem_map.mp hx with ⟨⟨x1, b⟩, hq, hqx⟩
            rcases hqx
            obtain ⟨bef1, aft1, hs1, hto1⟩ := C1 x1 b hq
            obtain ⟨bef2, aft2, hs2, hto2⟩ := C2 x1 b (hperm.subset hq)
            have hsame := stepF_perm fuel m hperm
              ((players.filter (fun q => q.2)).length)
              ((players.filter (fun q => !q.2)).length) x1 b
            rw [hs1, hs2] at hsame
            injection hsame with hsame
            rw [hto1, hto2, hsame]
          · have hx' : x ∉ players'.map Prod.fst :=
              fun hc => hx (((hperm.map Prod.fst).mem_iff).mpr hc)
            rw [B1 x hx, B2 x hx']
        show ((phase3 (totalChange t1 players / 10) t1 players m1).1).Perm
          ((phase3 (totalChange t2 players' / 10) t2 players' m2).1)
        rw [phase3_list, phase3_list, ht]
        have hc2 : totalChange t2 players = totalChange t2 players' := by
          unfold totalChange
          exact List.Perm.sum_eq (hperm.map _)
        rw [hc2]
        exact hperm.map _

/-- Witness for claim C10: the 7-versus-3 game against one of its
rotations. -/
theorem permutation_invariance_witness :
    (game73.Perm
        [(8, false), (9, false), (10, false), (1, true), (2, true), (3, true),
          (4, true), (5, true), (6, true), (7, true)] ∧
      (game73.map Prod.fst).Nodup) ∧
    bothOk (fun l1 l2 => l1.Perm l2)
      (process_game 2 4 game73 emptyMap).2
      (process_game 2 4 [(8, false), (9, false), (10, false), (1, true),
        (2, true), (3, true), (4, true), (5, true), (6, true), (7, true)]
        emptyMap).2 :=
  ⟨⟨by decide, by decide⟩,
    permutation_invariance 2 4 game73 _ emptyMap (by decide) (by decide)⟩

end Mafia
